import Mathlib

/-!
Verification of the comment-catcher repository's algorithmic core against its
specification.

The development shallowly embeds three components:

1. the bounded bidirectional dependency expander `getDependents`
   (from `dist/core/dependencies.js`, the variant of the traversal that follows
   both the dependents map and the dependency map; `src/core/dependencies.ts`
   is the historical upward-only variant),
2. the comment significance filter `isNoiseComment` and the comment extractor
   `extractComments` (from `src/core/comments.ts` / `dist/core/comments.js`,
   with defaults from `src/core/config.ts`),
3. the diff-position mapper `findCommentPositions` (from the inline-comment
   script).

External effects (the dependency-cruiser resolver, the filesystem, per-file
comment parsing) are passed in as explicit arguments, so every function here
is executable.
-/

namespace CommentCatcher

/-- JS `normalizeFilePath` from `dependencies.js`: strip one leading `./`
(`substring(2)`), then convert every backslash to a forward slash
(`replace(/\\/g, '/')`).  Implemented over the character list so that the
kernel can evaluate it. -/
def normalizeFilePath (p : String) : String :=
  let cs := if p.data.take 2 = ['.', '/'] then p.data.drop 2 else p.data
  ⟨cs.map (fun c => if c = '\\' then '/' else c)⟩

/-- One module of the resolver output: `module.source` together with the
`dep.resolved` path of each of its dependency records. -/
structure CruiseModule where
  source : String
  deps : List String
  deriving DecidableEq

/-- `result.output` of the resolver: either the unexpected string form or the
module list (`result.output.modules`). -/
abbrev CruiseOutput : Type := Sum String (List CruiseModule)

/-- JS `Set.prototype.add`: append an element unless it is already present
(membership-faithful model of insertion-ordered JS sets as lists). -/
def setAdd (s : List String) (x : String) : List String :=
  if x ∈ s then s else s ++ [x]

/-- JS `new Set(xs)`: fold `setAdd` over the list. -/
def setOfList (xs : List String) : List String :=
  xs.foldl setAdd []

/-- Add `v` to the set stored under key `k` of a map modelled as a total
function into lists (a missing key is the empty list, matching the
`if (!map.has(k)) map.set(k, new Set())` pattern). -/
def mapAdd (m : String → List String) (k v : String) : String → List String :=
  fun x => if x = k then setAdd (m x) v else m x

/-- Body of the inner graph-construction loop: for one `(source, dep)` pair
add `resolved → source` to the dependent map and `source → resolved` to the
dependency map. -/
def addDepEdge (src : String)
    (maps : (String → List String) × (String → List String)) (dep : String) :
    (String → List String) × (String → List String) :=
  let resolved := normalizeFilePath dep
  (mapAdd maps.1 resolved src, mapAdd maps.2 src resolved)

/-- Body of the outer graph-construction loop: fold one module's dependency
records into the two maps. -/
def addModuleEdges
    (maps : (String → List String) × (String → List String))
    (m : CruiseModule) :
    (String → List String) × (String → List String) :=
  m.deps.foldl (addDepEdge (normalizeFilePath m.source)) maps

/-- Graph construction loop of `getDependents` (dist variant): for every
`(module, dep)` pair add `resolved → source` to the dependent map and
`source → resolved` to the dependency map. -/
def buildMaps (mods : List CruiseModule) :
    (String → List String) × (String → List String) :=
  mods.foldl addModuleEdges (fun _ => [], fun _ => [])

/-- The dependent map (`dependentMap` in the source: file ↦ files that import
it). -/
def dependentMapOf (mods : List CruiseModule) : String → List String :=
  (buildMaps mods).1

/-- The dependency map (`dependencyMap` in the source: file ↦ files it
imports). -/
def dependencyMapOf (mods : List CruiseModule) : String → List String :=
  (buildMaps mods).2

/-- `changedSet` in the source: the normalized changed file paths. -/
def changedSetOf (changedFiles : List String) : List String :=
  setOfList (changedFiles.map normalizeFilePath)

/-- Inner neighbour loop of the BFS: for every `g` in one neighbour list,
if `g` is not a changed file, add it to the result set and push
`(g, currentDepth + 1)` onto the queue.  The accumulator is the pair
(queue, result set). -/
def enqueueNbrs (cs : List String) (k : Nat) (gs : List String)
    (qr : List (String × Nat) × List String) :
    List (String × Nat) × List String :=
  gs.foldl
    (fun qr g =>
      if g ∈ cs then qr else (qr.1 ++ [(g, k + 1)], setAdd qr.2 g))
    qr

/-- The `while (queue.length > 0)` loop of `getDependents`, with explicit fuel
(the JS loop terminates because each iteration either consumes a queue entry
or marks a new file visited; `getDependents` below supplies enough fuel).
State: queue of `(file, currentDepth)` pairs, visited set, result set.
A dequeued entry is skipped when its file is visited or its depth has reached
the bound; otherwise the file is marked visited and both neighbour lists are
expanded (dependents first, then dependencies, as in the source). -/
def bfsLoop (dm dm2 : String → List String) (cs : List String) (depth : Nat) :
    Nat → List (String × Nat) → List String → List String →
      List (String × Nat) × List String × List String
  | 0, q, v, r => (q, v, r)
  | _ + 1, [], v, r => ([], v, r)
  | fuel + 1, (f, k) :: rest, v, r =>
      if f ∈ v ∨ depth ≤ k then
        bfsLoop dm dm2 cs depth fuel rest v r
      else
        let p1 := enqueueNbrs cs k (dm f) (rest, r)
        let p2 := enqueueNbrs cs k (dm2 f) p1
        bfsLoop dm dm2 cs depth fuel p2.1 (setAdd v f) p2.2

/-- The two neighbour expansions of one loop iteration (dependents first,
then dependencies), acting on the (queue, result) pair. -/
def expandPair (dm dm2 : String → List String) (cs : List String) (k : Nat)
    (f : String) (q : List (String × Nat)) (r : List String) :
    List (String × Nat) × List String :=
  enqueueNbrs cs k (dm2 f) (enqueueNbrs cs k (dm f) (q, r))

/-- The traversal part of `getDependents` once the resolver has produced a
module list: build the two maps and the normalized changed set, seed the queue
with every changed file at depth 0, and run the loop.  The fuel bound
`|queue₀| + 2·(total dependency records) + 1` dominates the number of loop
iterations: every iteration consumes one queue entry, and entries are only
ever pushed while expanding a file for the first time, each push consuming one
entry of one of the two maps, whose total size is at most twice the number of
dependency records. -/
def relatedFilesOf (mods : List CruiseModule) (changedFiles : List String)
    (depth : Nat) : List String :=
  let cs := changedSetOf changedFiles
  let q0 := cs.map (fun f => (f, 0))
  let fuel := q0.length + 2 * (mods.map (fun m => m.deps.length)).sum + 1
  (bfsLoop (dependentMapOf mods) (dependencyMapOf mods) cs depth fuel q0 [] []).2.2

/-- `getDependents(changedFiles, depth)` (dist variant).  The external
dependency-cruiser call is passed in as `resolve`; a thrown resolver error is
`Except.error`, and `Sum.inl` is the `typeof result.output === 'string'` case
(whose `throw` is caught by the same `catch`).  Both are caught and degrade to
the empty list.  The `changedFiles.length === 0` early return precedes the
resolver call and the config load, so the result is independent of `resolve`
in that case. -/
def getDependents (resolve : Unit → Except String CruiseOutput)
    (changedFiles : List String) (depth : Nat) : List String :=
  if changedFiles = [] then []
  else
    match resolve () with
    | .error _ => []
    | .ok (.inl _) => []
    | .ok (.inr mods) => relatedFilesOf mods changedFiles depth

/-- `f` imports `g` in the resolver output: some module has normalized source
`f` and a dependency record resolving (after normalization) to `g`. -/
def EdgeOf (mods : List CruiseModule) (f g : String) : Prop :=
  ∃ m ∈ mods, normalizeFilePath m.source = f ∧
    ∃ dep ∈ m.deps, normalizeFilePath dep = g

/-- Adjacency in either import direction: `f` imports `g` or `g` imports `f`. -/
def AdjOf (mods : List CruiseModule) (f g : String) : Prop :=
  EdgeOf mods f g ∨ EdgeOf mods g f

/-- `ReachLe adj seeds k f`: `f` is reachable from some seed by a path of at
most `k` edges of `adj`. -/
inductive ReachLe (adj : String → String → Prop) (seeds : List String) :
    Nat → String → Prop where
  | seed {k s} : s ∈ seeds → ReachLe adj seeds k s
  | step {k f g} : ReachLe adj seeds k f → adj f g → ReachLe adj seeds (k + 1) g

/-! ## Diff-position mapper (`findCommentPositions` in the inline-comment script) -/

/-- JS `String.prototype.startsWith` on character lists. -/
def strStartsWith (l p : String) : Bool :=
  p.data.isPrefixOf l.data

/-- Split a character list into its leading run of decimal digits and the
rest (the `\d+` part of the hunk-header regex). -/
def takeDigits : List Char → List Char × List Char
  | [] => ([], [])
  | c :: cs =>
      if c.isDigit then
        let (ds, r) := takeDigits cs
        (c :: ds, r)
      else ([], c :: cs)

/-- Decimal value of a digit run (`parseInt`). -/
def digitsVal (ds : List Char) : Nat :=
  ds.foldl (fun n c => n * 10 + (c.toNat - 48)) 0

/-- The ` \+(\d+)` tail of the hunk-header regex: expect a space, a plus sign
and a nonempty digit run, and return the captured value. -/
def plusCapture : List Char → Option Nat
  | ' ' :: '+' :: r =>
      let (ds, _) := takeDigits r
      if ds = [] then none else some (digitsVal ds)
  | _ => none

/-- Match the regex `@@ -\d+(?:,\d+)? \+(\d+)` at the head of a character
list, returning the capture group.  The optional `,\d+` group behaves as in a
backtracking engine: if a comma follows the first digit run, the group must
match (a nonempty digit run), since retrying without the group would require a
space where the comma stands. -/
def matchHunkAt : List Char → Option Nat
  | '@' :: '@' :: ' ' :: '-' :: rest =>
      let (d1, r1) := takeDigits rest
      if d1 = [] then none
      else
        match r1 with
        | ',' :: r2 =>
            let (d2, r3) := takeDigits r2
            if d2 = [] then none else plusCapture r3
        | r1' => plusCapture r1'
  | _ => none

/-- Unanchored regex search (`String.prototype.match`): try the pattern at
every position and return the first capture. -/
def hunkSearch : List Char → Option Nat
  | [] => none
  | c :: cs =>
      match matchHunkAt (c :: cs) with
      | some n => some n
      | none => hunkSearch cs

/-- `line.match(/@@ -\d+(?:,\d+)? \+(\d+)/)`, returning the captured
new-file start line `c` of a hunk header `@@ -a,b +c,d @@`. -/
def hunkNewStart (line : String) : Option Nat :=
  hunkSearch line.data

/-- The patch-walking loop of `findCommentPositions` for one file, searching
for `target` (the comment's line in the new file).  `i` is the 0-based index
of the current patch line, `cur` the running new-file line number (an `Int`,
as in JS, since a header `@@ -a +0 @@` would set it to `-1`).  A hunk header
resets `cur` to `c - 1`; a context or added line increments `cur` and, when
`cur` hits `target`, the 1-based index `i + 1` is returned (`position`). -/
def findPositionAux (target : Int) : List String → Nat → Int → Option Nat
  | [], _, _ => none
  | l :: rest, i, cur =>
      if strStartsWith l "@@" then
        match hunkNewStart l with
        | some c => findPositionAux target rest (i + 1) ((c : Int) - 1)
        | none => findPositionAux target rest (i + 1) cur
      else if strStartsWith l "+" ∨ strStartsWith l " " then
        if cur + 1 = target then some (i + 1)
        else findPositionAux target rest (i + 1) (cur + 1)
      else findPositionAux target rest (i + 1) cur

/-- Diff-position mapping for one file: walk the file's patch lines and return
the 1-based patch-local index of the line whose new-file line number is
`target`, or `none` ("not found in diff"). -/
def findCommentPosition (patchLines : List String) (target : Int) : Option Nat :=
  findPositionAux target patchLines 0 0

/-- One step of the running new-file line counter, as a standalone function
(used to characterize `findCommentPosition`): a hunk header whose regex match
captures `c` resets the counter to `c - 1`, a context or added line increments
it, any other line (in particular a removed line) leaves it unchanged. -/
def counterStep (cur : Int) (l : String) : Int :=
  if strStartsWith l "@@" then
    match hunkNewStart l with
    | some c => (c : Int) - 1
    | none => cur
  else if strStartsWith l "+" ∨ strStartsWith l " " then cur + 1
  else cur

/-- A patch line that exists in the new file (context or added), i.e. a line
on which the counter is incremented and compared against the target. -/
def isCounted (l : String) : Bool :=
  strStartsWith l "+" || strStartsWith l " "

/-- 0-based index of the first element satisfying `p`. -/
def firstIdx (p : α → Bool) : List α → Option Nat
  | [] => none
  | x :: xs => if p x then some 0 else (firstIdx p xs).map (· + 1)

/-! ## Comment significance filter and extractor (`comments.ts`, `config.ts`) -/

/-- ASCII-faithful model of JS `toLowerCase` (the `i` regex flag). -/
def toLowerStr (s : String) : String :=
  ⟨s.data.map Char.toLower⟩

/-- Does `pat` occur as a contiguous subsequence of `text`?  (Search of a
literal pattern at every position.) -/
def containsSeq (pat : List Char) : List Char → Bool
  | [] => pat.isEmpty
  | c :: rest => pat.isPrefixOf (c :: rest) || containsSeq pat rest

/-- `new RegExp(p, 'i').test(c)` for a metacharacter-free pattern `p`:
case-insensitive substring search.  All default ignore patterns of
`config.ts` are literal strings, so this is exact for the default
configuration. -/
def regexTestCI (pat text : String) : Bool :=
  containsSeq (toLowerStr pat).data (toLowerStr text).data

/-- `defaultConfig.commentFilters.ignorePatterns` from `config.ts`. -/
def defaultIgnorePatterns : List String :=
  ["TODO:", "FIXME:", "NOTE:", "HACK:", "@ts-", "eslint-", "prettier-"]

/-- `defaultConfig.commentFilters.minLength` from `config.ts`. -/
def defaultMinLength : Nat := 10

/-- `isNoiseComment` from `comments.ts`, with the configured filters passed
explicitly (under the default configuration the configured pattern list is
nonempty, so the configured branch is taken): reject when the cleaned text is
shorter than the minimum, otherwise when some ignore pattern matches
case-insensitively. -/
def isNoiseComment (minLength : Nat) (ignorePatterns : List String)
    (comment : String) : Bool :=
  if comment.length < minLength then true
  else ignorePatterns.any (fun p => regexTestCI p comment)

/-- A comment record (`CodeComment` interface in `comments.ts`). -/
structure CodeComment where
  file : String
  line : Nat
  endLine : Option Nat
  text : String
  context : String
  deriving DecidableEq

/-- `extractComments(files)`: for each file in order, skip it when
`fs.existsSync` is false, otherwise append the comments extracted from it.
The filesystem check and the per-file extraction pipeline
(`readFileSync` + `extractCommentsFromSourceFile`) are passed in as
functions. -/
def extractComments (fsExists : String → Bool)
    (extractFile : String → List CodeComment) (files : List String) :
    List CodeComment :=
  files.foldl (fun acc f => if fsExists f then acc ++ extractFile f else acc) []

/-! ## Helper lemmas -/

theorem mem_setAdd {s : List String} {x y : String} :
    y ∈ setAdd s x ↔ y ∈ s ∨ y = x := by
  unfold setAdd
  split
  · constructor
    · exact Or.inl
    · rintro (h | rfl)
      · exact h
      · assumption
  · simp

theorem mem_mapAdd {m : String → List String} {k v x y : String} :
    y ∈ mapAdd m k v x ↔ y ∈ m x ∨ (x = k ∧ y = v) := by
  unfold mapAdd
  split
  · next h => simp [h, mem_setAdd]
  · next h => simp [h]

theorem enqueueNbrs_cons {cs : List String} {k : Nat} {g : String}
    {gs : List String} {q : List (String × Nat)} {r : List String} :
    enqueueNbrs cs k (g :: gs) (q, r)
      = enqueueNbrs cs k gs
          (if g ∈ cs then (q, r) else (q ++ [(g, k + 1)], setAdd r g)) := by
  simp only [enqueueNbrs, List.foldl_cons]

theorem enqueueNbrs_spec (cs : List String) (k : Nat) :
    ∀ (gs : List String) (q : List (String × Nat)) (r : List String),
      (enqueueNbrs cs k gs (q, r)).1
          = q ++ (gs.filter (fun g => decide (g ∉ cs))).map (fun g => (g, k + 1)) ∧
      ∀ x, x ∈ (enqueueNbrs cs k gs (q, r)).2 ↔ x ∈ r ∨ (x ∈ gs ∧ x ∉ cs)
  | [], q, r => by simp [enqueueNbrs]
  | g :: gs, q, r => by
      rw [enqueueNbrs_cons]
      by_cases hg : g ∈ cs
      · simp only [if_pos hg]
        obtain ⟨h1, h2⟩ := enqueueNbrs_spec cs k gs q r
        refine ⟨?_, ?_⟩
        · simpa [hg] using h1
        · intro x
          rw [h2 x]
          constructor
          · rintro (h | h)
            · exact Or.inl h
            · exact Or.inr ⟨List.mem_cons_of_mem _ h.1, h.2⟩
          · rintro (h | ⟨hx, hcs⟩)
            · exact Or.inl h
            · rcases List.mem_cons.1 hx with rfl | hx
              · exact absurd hg hcs
              · exact Or.inr ⟨hx, hcs⟩
      · simp only [if_neg hg]
        obtain ⟨h1, h2⟩ := enqueueNbrs_spec cs k gs (q ++ [(g, k + 1)]) (setAdd r g)
        refine ⟨?_, ?_⟩
        · rw [h1]
          simp [hg]
        · intro x
          rw [h2 x, mem_setAdd]
          constructor
          · rintro ((h | rfl) | ⟨hx, hcs⟩)
            · exact Or.inl h
            · exact Or.inr ⟨List.mem_cons_self _ _, hg⟩
            · exact Or.inr ⟨List.mem_cons_of_mem _ hx, hcs⟩
          · rintro (h | ⟨hx, hcs⟩)
            · exact Or.inl (Or.inl h)
            · rcases List.mem_cons.1 hx with rfl | hx
              · exact Or.inl (Or.inr rfl)
              · exact Or.inr ⟨hx, hcs⟩

theorem expandPair_queue {dm dm2 : String → List String} {cs : List String}
    {k : Nat} {f : String} {q : List (String × Nat)} {r : List String} :
    (expandPair dm dm2 cs k f q r).1
      = q ++ ((dm f ++ dm2 f).filter (fun g => decide (g ∉ cs))).map
          (fun g => (g, k + 1)) := by
  unfold expandPair
  obtain ⟨h1, _⟩ := enqueueNbrs_spec cs k (dm f) q r
  obtain ⟨h1', _⟩ := enqueueNbrs_spec cs k (dm2 f)
    (enqueueNbrs cs k (dm f) (q, r)).1 (enqueueNbrs cs k (dm f) (q, r)).2
  have e : ((enqueueNbrs cs k (dm f) (q, r)).1, (enqueueNbrs cs k (dm f) (q, r)).2)
      = enqueueNbrs cs k (dm f) (q, r) := rfl
  rw [e] at h1'
  rw [h1', h1]
  simp [List.filter_append, List.append_assoc]

theorem expandPair_result {dm dm2 : String → List String} {cs : List String}
    {k : Nat} {f : String} {q : List (String × Nat)} {r : List String} {x : String} :
    x ∈ (expandPair dm dm2 cs k f q r).2
      ↔ x ∈ r ∨ (x ∈ dm f ++ dm2 f ∧ x ∉ cs) := by
  unfold expandPair
  obtain ⟨_, h2⟩ := enqueueNbrs_spec cs k (dm f) q r
  obtain ⟨_, h2'⟩ := enqueueNbrs_spec cs k (dm2 f)
    (enqueueNbrs cs k (dm f) (q, r)).1 (enqueueNbrs cs k (dm f) (q, r)).2
  have e : ((enqueueNbrs cs k (dm f) (q, r)).1, (enqueueNbrs cs k (dm f) (q, r)).2)
      = enqueueNbrs cs k (dm f) (q, r) := rfl
  rw [e] at h2'
  rw [h2' x, h2 x]
  simp only [List.mem_append]
  tauto

theorem bfsLoop_skip {dm dm2 : String → List String} {cs : List String}
    {d fuel : Nat} {q : List (String × Nat)} {v r : List String}
    {f : String} {k : Nat} (h : f ∈ v ∨ d ≤ k) :
    bfsLoop dm dm2 cs d (fuel + 1) ((f, k) :: q) v r
      = bfsLoop dm dm2 cs d fuel q v r := by
  simp [bfsLoop, h]

theorem bfsLoop_expand {dm dm2 : String → List String} {cs : List String}
    {d fuel : Nat} {q : List (String × Nat)} {v r : List String}
    {f : String} {k : Nat} (hv : f ∉ v) (hk : k < d) :
    bfsLoop dm dm2 cs d (fuel + 1) ((f, k) :: q) v r
      = bfsLoop dm dm2 cs d fuel (expandPair dm dm2 cs k f q r).1
          (setAdd v f) (expandPair dm dm2 cs k f q r).2 := by
  have h : ¬(f ∈ v ∨ d ≤ k) := by
    rintro (h | h)
    · exact hv h
    · omega
  simp [bfsLoop, h, expandPair]

theorem bfsLoop_depth0 {dm dm2 : String → List String} {cs : List String} :
    ∀ (fuel : Nat) (q : List (String × Nat)) (v r : List String),
      (bfsLoop dm dm2 cs 0 fuel q v r).2.2 = r
  | 0, _, _, _ => rfl
  | _ + 1, [], _, _ => rfl
  | fuel + 1, (f, k) :: q, v, r => by
      rw [bfsLoop_skip (Or.inr (Nat.zero_le k))]
      exact bfsLoop_depth0 fuel q v r

theorem ReachLe.mono {adj : String → String → Prop} {seeds : List String} :
    ∀ {k k' : Nat} {x : String}, k ≤ k' → ReachLe adj seeds k x →
      ReachLe adj seeds k' x := by
  intro k k' x hkk h
  induction h generalizing k' with
  | seed hs => exact .seed hs
  | step hf hadj ih =>
      match k', hkk with
      | k'' + 1, hkk => exact .step (ih (by omega)) hadj

theorem mem_addDepEdge_fold (src : String) :
    ∀ (deps : List String)
      (maps : (String → List String) × (String → List String)) (f g : String),
      (g ∈ (deps.foldl (addDepEdge src) maps).1 f →
        g ∈ maps.1 f ∨ (g = src ∧ ∃ dep ∈ deps, normalizeFilePath dep = f)) ∧
      (g ∈ (deps.foldl (addDepEdge src) maps).2 f →
        g ∈ maps.2 f ∨ (f = src ∧ ∃ dep ∈ deps, normalizeFilePath dep = g))
  | [], maps, f, g => by simp
  | dep :: deps, maps, f, g => by
      rw [List.foldl_cons]
      obtain ⟨ih1, ih2⟩ := mem_addDepEdge_fold src deps (addDepEdge src maps dep) f g
      constructor
      · intro h
        rcases ih1 h with h | ⟨rfl, d, hd, hnd⟩
        · rcases mem_mapAdd.1 h with h | ⟨hf, rfl⟩
          · exact Or.inl h
          · exact Or.inr ⟨rfl, dep, List.mem_cons_self _ _, hf.symm⟩
        · exact Or.inr ⟨rfl, d, List.mem_cons_of_mem _ hd, hnd⟩
      · intro h
        rcases ih2 h with h | ⟨rfl, d, hd, hnd⟩
        · rcases mem_mapAdd.1 h with h | ⟨rfl, rfl⟩
          · exact Or.inl h
          · exact Or.inr ⟨rfl, dep, List.mem_cons_self _ _, rfl⟩
        · exact Or.inr ⟨rfl, d, List.mem_cons_of_mem _ hd, hnd⟩

theorem mem_addModuleEdges_fold :
    ∀ (ms : List CruiseModule)
      (maps : (String → List String) × (String → List String)) (f g : String),
      (g ∈ (ms.foldl addModuleEdges maps).1 f →
        g ∈ maps.1 f ∨
          ∃ m ∈ ms, normalizeFilePath m.source = g ∧
            ∃ dep ∈ m.deps, normalizeFilePath dep = f) ∧
      (g ∈ (ms.foldl addModuleEdges maps).2 f →
        g ∈ maps.2 f ∨
          ∃ m ∈ ms, normalizeFilePath m.source = f ∧
            ∃ dep ∈ m.deps, normalizeFilePath dep = g)
  | [], maps, f, g => by simp
  | m :: ms, maps, f, g => by
      rw [List.foldl_cons]
      obtain ⟨ih1, ih2⟩ := mem_addModuleEdges_fold ms (addModuleEdges maps m) f g
      obtain ⟨hm1, hm2⟩ :=
        mem_addDepEdge_fold (normalizeFilePath m.source) m.deps maps f g
      constructor
      · intro h
        rcases ih1 h with h | ⟨m', hm', hsrc, hdep⟩
        · rcases hm1 h with h | ⟨rfl, d, hd, hnd⟩
          · exact Or.inl h
          · exact Or.inr ⟨m, List.mem_cons_self _ _, rfl, d, hd, hnd⟩
        · exact Or.inr ⟨m', List.mem_cons_of_mem _ hm', hsrc, hdep⟩
      · intro h
        rcases ih2 h with h | ⟨m', hm', hsrc, hdep⟩
        · rcases hm2 h with h | ⟨rfl, d, hd, hnd⟩
          · exact Or.inl h
          · exact Or.inr ⟨m, List.mem_cons_self _ _, rfl, d, hd, hnd⟩
        · exact Or.inr ⟨m', List.mem_cons_of_mem _ hm', hsrc, hdep⟩

theorem mem_dependentMapOf {mods : List CruiseModule} {f g : String}
    (h : g ∈ dependentMapOf mods f) : EdgeOf mods g f := by
  have := (mem_addModuleEdges_fold mods (fun _ => [], fun _ => []) f g).1 h
  rcases this with h | ⟨m, hm, hsrc, hdep⟩
  · simp at h
  · exact ⟨m, hm, hsrc, hdep⟩

theorem mem_dependencyMapOf {mods : List CruiseModule} {f g : String}
    (h : g ∈ dependencyMapOf mods f) : EdgeOf mods f g := by
  have := (mem_addModuleEdges_fold mods (fun _ => [], fun _ => []) f g).2 h
  rcases this with h | ⟨m, hm, hsrc, hdep⟩
  · simp at h
  · exact ⟨m, hm, hsrc, hdep⟩

theorem bfsLoop_sound {dm dm2 : String → List String} {cs : List String}
    {d : Nat} (adj : String → String → Prop)
    (hdm : ∀ f g, g ∈ dm f → adj f g) (hdm2 : ∀ f g, g ∈ dm2 f → adj f g) :
    ∀ (fuel : Nat) (q : List (String × Nat)) (v r : List String),
      (∀ p ∈ q, ReachLe adj cs p.2 p.1) →
      (∀ x ∈ r, x ∉ cs ∧ ReachLe adj cs d x) →
      ∀ x ∈ (bfsLoop dm dm2 cs d fuel q v r).2.2,
        x ∉ cs ∧ ReachLe adj cs d x
  | 0, q, v, r => fun _ hr => hr
  | _ + 1, [], v, r => fun _ hr => hr
  | fuel + 1, (f, k) :: q, v, r => by
      intro hq hr
      by_cases hskip : f ∈ v ∨ d ≤ k
      · rw [bfsLoop_skip hskip]
        exact bfsLoop_sound adj hdm hdm2 fuel q v r
          (fun p hp => hq p (List.mem_cons_of_mem _ hp)) hr
      · push_neg at hskip
        obtain ⟨hv, hk⟩ := hskip
        rw [bfsLoop_expand hv hk]
        have hf : ReachLe adj cs k f := hq (f, k) (List.mem_cons_self _ _)
        apply bfsLoop_sound adj hdm hdm2 fuel _ _ _
        · intro p hp
          rw [expandPair_queue] at hp
          rcases List.mem_append.1 hp with hp | hp
          · exact hq p (List.mem_cons_of_mem _ hp)
          · obtain ⟨g, hg, rfl⟩ := List.mem_map.1 hp
            have hg' := List.of_mem_filter hg
            have hgmem := List.mem_of_mem_filter hg
            rcases List.mem_append.1 hgmem with hgm | hgm
            · exact .step hf (hdm f g hgm)
            · exact .step hf (hdm2 f g hgm)
        · intro x hx
          rcases expandPair_result.1 hx with hx | ⟨hxm, hxcs⟩
          · exact hr x hx
          · refine ⟨hxcs, ?_⟩
            have hx' : ReachLe adj cs (k + 1) x := by
              rcases List.mem_append.1 hxm with hxm | hxm
              · exact .step hf (hdm f x hxm)
              · exact .step hf (hdm2 f x hxm)
            exact hx'.mono (by omega)

theorem relatedFilesOf_sound {mods : List CruiseModule}
    {changedFiles : List String} {d : Nat} :
    ∀ x ∈ relatedFilesOf mods changedFiles d,
      x ∉ changedSetOf changedFiles ∧
        ReachLe (AdjOf mods) (changedSetOf changedFiles) d x := by
  intro x hx
  refine bfsLoop_sound (AdjOf mods)
    (fun f g hg => Or.inr (mem_dependentMapOf hg))
    (fun f g hg => Or.inl (mem_dependencyMapOf hg))
    _ _ _ _ ?_ (by simp) x hx
  intro p hp
  obtain ⟨f, hf, rfl⟩ := List.mem_map.1 hp
  exact .seed hf

/-! ## Claim theorems -/

/-- C1: for the module graph `A→B→C` with the extra edge `D→A` (D imports A)
and seed set `{A}`, the related-file traversal with depth bound 1 returns
exactly the set `{B, D}` — the dependent `D` one hop upward and the
dependency `B` one hop downward — and `C` (two hops away) is excluded.
`getDependents` with a resolver producing this graph returns the same list. -/
theorem c1_scenario_depth1 :
    (relatedFilesOf [⟨"A", ["B"]⟩, ⟨"B", ["C"]⟩, ⟨"D", ["A"]⟩] ["A"] 1).toFinset
        = ({"B", "D"} : Finset String) ∧
    "C" ∉ relatedFilesOf [⟨"A", ["B"]⟩, ⟨"B", ["C"]⟩, ⟨"D", ["A"]⟩] ["A"] 1 ∧
    getDependents
        (fun _ => .ok (.inr [⟨"A", ["B"]⟩, ⟨"B", ["C"]⟩, ⟨"D", ["A"]⟩])) ["A"] 1
      = relatedFilesOf [⟨"A", ["B"]⟩, ⟨"B", ["C"]⟩, ⟨"D", ["A"]⟩] ["A"] 1 := by
  refine ⟨by decide, by decide, rfl⟩

/-- C3: for every module graph and seed list, the traversal's result contains
no member of the (normalized) seed set, regardless of cycles and even when
one seed is reachable from another. -/
theorem c3_seeds_excluded (mods : List CruiseModule)
    (changedFiles : List String) (d : Nat) :
    ∀ s ∈ changedSetOf changedFiles, s ∉ relatedFilesOf mods changedFiles d := by
  intro s hs hmem
  exact (relatedFilesOf_sound s hmem).1 hs

/-- Witness for C3 on a cyclic graph in which the seed is reachable from
itself. -/
theorem c3_seeds_excluded_witness :
    "A" ∉ relatedFilesOf [⟨"A", ["B"]⟩, ⟨"B", ["A"]⟩] ["A"] 5 :=
  c3_seeds_excluded [⟨"A", ["B"]⟩, ⟨"B", ["A"]⟩] ["A"] 5 "A" (by decide)

/-- C4: for every module graph and non-empty seed list, the traversal with
depth bound 0 returns the empty result; consequently `getDependents` with
depth 0 returns `[]` whatever the resolver does. -/
theorem c4_depth_zero_empty (resolve : Unit → Except String CruiseOutput)
    (mods : List CruiseModule) (changedFiles : List String)
    (h : changedFiles ≠ []) :
    relatedFilesOf mods changedFiles 0 = [] ∧
      getDependents resolve changedFiles 0 = [] := by
  have hrel : ∀ mods' : List CruiseModule,
      relatedFilesOf mods' changedFiles 0 = [] := by
    intro mods'
    unfold relatedFilesOf
    exact bfsLoop_depth0 _ _ _ _
  refine ⟨hrel mods, ?_⟩
  unfold getDependents
  rw [if_neg h]
  match resolve () with
  | .error _ => rfl
  | .ok (.inl _) => rfl
  | .ok (.inr mods') => exact hrel mods'

/-- Witness for C4. -/
theorem c4_depth_zero_empty_witness :
    relatedFilesOf [⟨"A", ["B"]⟩] ["A"] 0 = [] ∧
      getDependents (fun _ => .ok (.inr [⟨"A", ["B"]⟩])) ["A"] 0 = [] :=
  c4_depth_zero_empty (fun _ => .ok (.inr [⟨"A", ["B"]⟩]))
    [⟨"A", ["B"]⟩] ["A"] (by decide)

/-- C2: for every module graph, seed set and depth bound `d ≥ 1`:
(i) every file in the traversal's result is a non-seed reachable from some
seed by a path of at most `d` edges followed in either import direction;
(ii) consequently no file whose minimum such distance from every seed
exceeds `d` (i.e. that is not reachable within `d`) appears in the result;
(iii) a dequeued entry whose recorded depth has reached `d` is discarded
without being expanded (state unchanged apart from the queue); and
(iv) when an entry is expanded, every file enqueued by the expansion —
including those first discovered at depth exactly `d` — is simultaneously
added to the result set. -/
theorem c2_depth_bound (mods : List CruiseModule) (changedFiles : List String)
    (d : Nat) (_hd : 1 ≤ d) :
    (∀ f ∈ relatedFilesOf mods changedFiles d,
        f ∉ changedSetOf changedFiles ∧
          ReachLe (AdjOf mods) (changedSetOf changedFiles) d f) ∧
    (∀ f, ¬ ReachLe (AdjOf mods) (changedSetOf changedFiles) d f →
        f ∉ relatedFilesOf mods changedFiles d) ∧
    (∀ (fuel : Nat) (q : List (String × Nat)) (v r : List String)
        (f : String) (k : Nat), d ≤ k →
        bfsLoop (dependentMapOf mods) (dependencyMapOf mods)
            (changedSetOf changedFiles) d (fuel + 1) ((f, k) :: q) v r
          = bfsLoop (dependentMapOf mods) (dependencyMapOf mods)
              (changedSetOf changedFiles) d fuel q v r) ∧
    (∀ (fuel : Nat) (q : List (String × Nat)) (v r : List String)
        (f : String) (k : Nat), f ∉ v → k < d →
        bfsLoop (dependentMapOf mods) (dependencyMapOf mods)
            (changedSetOf changedFiles) d (fuel + 1) ((f, k) :: q) v r
          = bfsLoop (dependentMapOf mods) (dependencyMapOf mods)
              (changedSetOf changedFiles) d fuel
              (expandPair (dependentMapOf mods) (dependencyMapOf mods)
                (changedSetOf changedFiles) k f q r).1
              (setAdd v f)
              (expandPair (dependentMapOf mods) (dependencyMapOf mods)
                (changedSetOf changedFiles) k f q r).2 ∧
        ∀ g j,
          (g, j) ∈ (expandPair (dependentMapOf mods) (dependencyMapOf mods)
              (changedSetOf changedFiles) k f q r).1 →
            (g, j) ∈ q ∨
              (g ∈ (expandPair (dependentMapOf mods) (dependencyMapOf mods)
                  (changedSetOf changedFiles) k f q r).2 ∧ j = k + 1)) := by
  refine ⟨fun f hf => relatedFilesOf_sound f hf, ?_, ?_, ?_⟩
  · intro f hnr hmem
    exact hnr (relatedFilesOf_sound f hmem).2
  · intro fuel q v r f k hk
    exact bfsLoop_skip (Or.inr hk)
  · intro fuel q v r f k hv hk
    refine ⟨bfsLoop_expand hv hk, ?_⟩
    intro g j hgj
    rw [expandPair_queue] at hgj
    rcases List.mem_append.1 hgj with hgj | hgj
    · exact Or.inl hgj
    · obtain ⟨g', hg', heq⟩ := List.mem_map.1 hgj
      obtain ⟨rfl, rfl⟩ := Prod.mk.injEq .. ▸ heq
      refine Or.inr ⟨expandPair_result.2 (Or.inr ?_), rfl⟩
      exact ⟨List.mem_of_mem_filter hg', by simpa using List.of_mem_filter hg'⟩

/-- Witness for C2: a concrete instance of its depth-cutoff conjunct — an
entry dequeued at the depth bound is dropped without expansion. -/
theorem c2_depth_bound_witness :
    bfsLoop (dependentMapOf [⟨"A", ["B"]⟩]) (dependencyMapOf [⟨"A", ["B"]⟩])
        (changedSetOf ["A"]) 1 1 [("B", 1)] [] []
      = bfsLoop (dependentMapOf [⟨"A", ["B"]⟩]) (dependencyMapOf [⟨"A", ["B"]⟩])
          (changedSetOf ["A"]) 1 0 [] [] [] :=
  (c2_depth_bound [⟨"A", ["B"]⟩] ["A"] 1 (by decide)).2.2.1 0 [] [] [] "B" 1
    (by decide)

/-- C5: when the external resolver throws (`Except.error`) or yields the
malformed string output, `getDependents` catches the failure and returns the
empty list, for every seed list and depth. -/
theorem c5_resolver_failure_empty (changedFiles : List String) (d : Nat)
    (e s : String) :
    getDependents (fun _ => .error e) changedFiles d = [] ∧
      getDependents (fun _ => .ok (.inl s)) changedFiles d = [] := by
  unfold getDependents
  by_cases h : changedFiles = [] <;> simp [h]

/-- C9: `getDependents` on an empty changed-file list returns `[]` for every
depth, and the result does not depend on the resolver (the early return
precedes both the config load and the resolver call, modelled here by the
result being identical for any two resolvers). -/
theorem c9_empty_input (d : Nat)
    (r1 r2 : Unit → Except String CruiseOutput) :
    getDependents r1 [] d = [] ∧ getDependents r1 [] d = getDependents r2 [] d := by
  unfold getDependents
  simp

/-- C6: the significance filter rejects a cleaned comment text exactly when
its length is below the configured minimum (default 10) or some configured
ignore pattern matches it case-insensitively; under the default configuration
`"NOTE: legacy path"` is rejected by pattern match despite having length ≥ 10,
and `"ok"` is rejected for being below the minimum length. -/
theorem c6_noise_filter (minLength : Nat) (pats : List String) (c : String) :
    (isNoiseComment minLength pats c = true ↔
        c.length < minLength ∨ ∃ p ∈ pats, regexTestCI p c = true) ∧
    isNoiseComment defaultMinLength defaultIgnorePatterns "NOTE: legacy path"
        = true ∧
    ¬("NOTE: legacy path".length < defaultMinLength) ∧
    isNoiseComment defaultMinLength defaultIgnorePatterns "ok" = true ∧
    "ok".length < defaultMinLength := by
  refine ⟨?_, by decide, by decide, by decide, by decide⟩
  unfold isNoiseComment
  by_cases h : c.length < minLength <;> simp [h, List.any_eq_true]

/-- C10: `extractComments` never touches a path for which the existence check
fails, and its result is the concatenation, in input order, of the per-file
extractions over exactly the paths that exist. -/
theorem c10_extract_skips_missing (fsExists : String → Bool)
    (extractFile : String → List CodeComment) (files : List String) :
    extractComments fsExists extractFile files
      = ((files.filter fsExists).map extractFile).flatten := by
  have aux : ∀ (fs : List String) (acc : List CodeComment),
      fs.foldl (fun acc f => if fsExists f then acc ++ extractFile f else acc) acc
        = acc ++ ((fs.filter fsExists).map extractFile).flatten := by
    intro fs
    induction fs with
    | nil => simp
    | cons f fs ih =>
        intro acc
        rw [List.foldl_cons]
        by_cases h : fsExists f
        · rw [if_pos h, ih]
          simp [h, List.append_assoc]
        · rw [if_neg h, ih]
          simp [h]
  simpa using aux files []

/-- C8: in a patch whose second hunk header is `@@ -10,3 +12,4 @@`, followed
by two context lines and one added line, the running counter assigns the
added line the new-file line number 14 = 12 + 2 (visible as the 9th entry of
the counter trace), and the mapper returns position 8 for target line 14 —
the 4th patch line counted inclusively from that header, which is the 5th
patch line (0-based index 4). -/
theorem c8_second_hunk_scenario :
    findCommentPosition
        ["@@ -1,2 +1,2 @@", " x", "-y", "+z",
         "@@ -10,3 +12,4 @@", " c1", " c2", "+a"] 14 = some 8 ∧
    (["@@ -1,2 +1,2 @@", " x", "-y", "+z",
      "@@ -10,3 +12,4 @@", " c1", " c2", "+a"].scanl counterStep 0)[8]?
        = some 14 ∧
    ["@@ -1,2 +1,2 @@", " x", "-y", "+z",
     "@@ -10,3 +12,4 @@", " c1", " c2", "+a"][4]?
        = some "@@ -10,3 +12,4 @@" ∧
    8 = 4 + 1 + 3 := by
  refine ⟨by decide, by decide, by decide, by decide⟩

theorem header_not_counted {l : String} (h : strStartsWith l "@@" = true) :
    isCounted l = false := by
  have h2 : "@@".data = ['@', '@'] := rfl
  have hp : "+".data = ['+'] := rfl
  have hs : " ".data = [' '] := rfl
  unfold strStartsWith at h
  unfold isCounted strStartsWith
  rw [h2] at h
  rw [hp, hs]
  match hld : l.data with
  | [] => rw [hld] at h; unfold List.isPrefixOf at h; simp at h
  | c :: cs =>
      rw [hld] at h
      unfold List.isPrefixOf at h
      simp at h
      obtain ⟨h', -⟩ := h
      subst h'
      unfold List.isPrefixOf
      simp

theorem counted_true {l : String}
    (h : strStartsWith l "+" = true ∨ strStartsWith l " " = true) :
    isCounted l = true := by
  unfold isCounted
  rcases h with h | h <;> simp [h]

theorem counted_false {l : String} (hp : ¬ strStartsWith l "+" = true)
    (hs : ¬ strStartsWith l " " = true) : isCounted l = false := by
  unfold isCounted
  simp [Bool.eq_false_iff.2 hp, Bool.eq_false_iff.2 hs]

theorem zip_scanl_cons {f : Int → String → Int} {b : Int} {x : String}
    {xs : List String} :
    (x :: xs).zip (((x :: xs).scanl f b).tail)
      = (x, f b x) :: xs.zip ((xs.scanl f (f b x)).tail) := by
  cases xs <;> simp [List.scanl]

theorem option_map_shift {o : Option Nat} {i : Nat} :
    (o.map (fun n => n + 1)).map (fun n => n + (i + 1))
      = o.map (fun n => n + (i + 1 + 1)) := by
  cases o with
  | none => rfl
  | some n => simp; omega

theorem findPositionAux_eq (t : Int) :
    ∀ (ls : List String) (i : Nat) (cur : Int),
      findPositionAux t ls i cur
        = (firstIdx (fun p => isCounted p.1 && (p.2 == t))
            (ls.zip ((ls.scanl counterStep cur).tail))).map
            (fun n => n + (i + 1))
  | [], i, cur => by simp [findPositionAux, firstIdx, List.scanl]
  | l :: rest, i, cur => by
      rw [zip_scanl_cons]
      by_cases h1 : strStartsWith l "@@" = true
      · have hnc := header_not_counted h1
        match hh : hunkNewStart l with
        | some c =>
            have hcs : counterStep cur l = (c : Int) - 1 := by
              simp [counterStep, h1, hh]
            rw [hcs]
            have ih := findPositionAux_eq t rest (i + 1) ((c : Int) - 1)
            simp only [findPositionAux, h1, if_true, hh, ih, firstIdx, hnc,
              Bool.false_and, if_neg (Bool.false_ne_true), option_map_shift]
        | none =>
            have hcs : counterStep cur l = cur := by
              simp [counterStep, h1, hh]
            rw [hcs]
            have ih := findPositionAux_eq t rest (i + 1) cur
            simp only [findPositionAux, h1, if_true, hh, ih, firstIdx, hnc,
              Bool.false_and, if_neg (Bool.false_ne_true), option_map_shift]
      · by_cases h2 : strStartsWith l "+" = true ∨ strStartsWith l " " = true
        · have hct := counted_true h2
          have hcs : counterStep cur l = cur + 1 := by
            simp [counterStep, h1, h2]
          rw [hcs]
          by_cases he : cur + 1 = t
          · have hb : ((cur + 1 : Int) == t) = true := beq_iff_eq.2 he
            simp [findPositionAux, h1, h2, he, firstIdx, hct, hb]
          · have hb : ((cur + 1 : Int) == t) = false :=
              beq_eq_false_iff_ne.2 he
            have ih := findPositionAux_eq t rest (i + 1) (cur + 1)
            simp only [findPositionAux, h1, if_false, if_neg h1, if_pos h2,
              if_neg he, ih, firstIdx, hct, hb, Bool.true_and,
              if_neg (Bool.false_ne_true), option_map_shift]
        · have hct : isCounted l = false := by
            push_neg at h2
            exact counted_false h2.1 h2.2
          have hcs : counterStep cur l = cur := by
            simp [counterStep, h1, h2]
          rw [hcs]
          have ih := findPositionAux_eq t rest (i + 1) cur
          simp only [findPositionAux, if_neg h1, if_neg h2, ih, firstIdx, hct,
            Bool.false_and, if_neg (Bool.false_ne_true), option_map_shift]

/-- C7: the diff-position mapper resets its running new-file line counter to
`c - 1` at every hunk header whose regex match captures `c` (conjunct 1),
increments it on every context and added line (conjunct 2), leaves it
unchanged on every other line, in particular removed lines (conjunct 3), and
returns the 1-based index, within the file's entire sequence of patch lines,
of the first context/added line at which the counter equals the target
new-file line number (conjunct 4, phrased via the counter trace
`scanl counterStep 0`). -/
theorem c7_position_mapper (lines : List String) (t : Int) :
    (∀ (cur : Int) (l : String) (n : Nat), strStartsWith l "@@" = true →
        hunkNewStart l = some n → counterStep cur l = (n : Int) - 1) ∧
    (∀ (cur : Int) (l : String), strStartsWith l "@@" = false →
        (strStartsWith l "+" = true ∨ strStartsWith l " " = true) →
        counterStep cur l = cur + 1) ∧
    (∀ (cur : Int) (l : String), strStartsWith l "@@" = false →
        strStartsWith l "+" = false → strStartsWith l " " = false →
        counterStep cur l = cur) ∧
    findCommentPosition lines t
      = (firstIdx (fun p => isCounted p.1 && (p.2 == t))
          (lines.zip ((lines.scanl counterStep 0).tail))).map (fun n => n + 1) := by
  refine ⟨?_, ?_, ?_, ?_⟩
  · intro cur l n h hh
    simp [counterStep, h, hh]
  · intro cur l h h2
    simp [counterStep, h, h2]
  · intro cur l h hp hs
    simp [counterStep, h, hp, hs]
  · rw [findCommentPosition, findPositionAux_eq]

/-- Witness for C7: concrete instances of the three counter rules and of the
position equation. -/
theorem c7_position_mapper_witness :
    counterStep 3 "@@ -10,3 +12,4 @@" = (12 : Int) - 1 ∧
    counterStep 3 "+added line" = 3 + 1 ∧
    counterStep 3 " context line" = 3 + 1 ∧
    counterStep 3 "-removed line" = 3 :=
  ⟨(c7_position_mapper [] 0).1 3 "@@ -10,3 +12,4 @@" 12 (by decide) (by decide),
   (c7_position_mapper [] 0).2.1 3 "+added line" (by decide)
     (Or.inl (by decide)),
   (c7_position_mapper [] 0).2.1 3 " context line" (by decide)
     (Or.inr (by decide)),
   (c7_position_mapper [] 0).2.2.1 3 "-removed line" (by decide) (by decide)
     (by decide)⟩

end CommentCatcher
